import Mathlib

/-!
# Verification of the chunk→region aggregation layer

Shallow embedding of
`amulet_map_editor/amulet_wx/world_manager/extensions/amulet_renderer/render_region.py`
(`ChunkManager` and `RenderRegion`) together with the `RenderChunk` contract.

Modelling conventions:
* Python dicts are insertion-ordered association lists (`dictInsert` replaces
  in place, mirroring CPython's key-preserving update order).
* The GL side effects of the code (buffer allocation, upload, draw, deletion)
  are recorded in an explicit `World` (live handle sets, per-chunk released
  flags) plus an event trace returned by every operation.
* Vertex data (`chunk_lod0`, a numpy float array in the source) is abstracted
  to a `List Int`: no claim computes on the float values, only on
  concatenation and length, which the abstraction preserves.
* The shader handle, uniform location and the 4×4 float transform matrices are
  opaque to every claim and are omitted; the control flow around them
  (`_setup` runs once, draw composes transforms then issues one call) is kept.
* Python `//` is floor division, embedded as `Int.fdiv`.
-/

/-- One observable GPU action of the renderer. -/
inductive GLEvent where
  | bufferUpload : Nat → List Int → GLEvent
  | drawMerged : Nat → Nat → GLEvent
  | drawChunk : Nat → GLEvent
  | deleteVao : Nat → GLEvent
deriving DecidableEq

/-- The GPU/heap state threaded through all operations: which chunk objects
have had their standalone resources released (chunk objects are shared
between the `_chunks` dict and the `_manual_chunks` list, so the flag lives
here, keyed by object identity), plus the live GL handle sets. -/
structure World where
  released : Nat → Bool
  nextHandle : Nat
  liveVaos : List Nat
  liveVbos : List Nat

def World.init : World :=
  { released := fun _ => false, nextHandle := 0, liveVaos := [], liveVbos := [] }

/-- An already-meshed renderable unit (`RenderChunk`): identity `id` (Python
object identity), chunk coordinate `(cx, cz)` and its interleaved vertex
payload `chunk_lod0`. -/
structure RenderChunk where
  id : Nat
  cx : Int
  cz : Int
  chunk_lod0 : List Int
deriving DecidableEq

/-- Modelled from the spec: `render_chunk.py` is not among the sources, only
its callers are. Per the spec, `release()`/`unload()` frees the unit's
standalone GPU resources if allocated and is safe to call repeatedly. -/
def RenderChunk.unload (w : World) (c : RenderChunk) : World :=
  { w with released := fun i => if i = c.id then true else w.released i }

/-- Modelled from the spec: `drawStandalone(transform)` issues one draw call
for the unit, and fails silently (no-op) once the unit has been
merged/unloaded, since its resources no longer exist. -/
def RenderChunk.drawEvents (w : World) (c : RenderChunk) : List GLEvent :=
  if w.released c.id then [] else [GLEvent.drawChunk c.id]

/-! ## Insertion-ordered dictionaries (Python `dict`) -/

def dictLookup {β : Type} : List ((Int × Int) × β) → (Int × Int) → Option β
  | [], _ => none
  | (k, v) :: rest, a => if k = a then some v else dictLookup rest a

def dictInsert {β : Type} : List ((Int × Int) × β) → (Int × Int) → β → List ((Int × Int) × β)
  | [], a, b => [(a, b)]
  | (k, v) :: rest, a, b => if k = a then (a, b) :: rest else (k, v) :: dictInsert rest a b

def dictErase {β : Type} : List ((Int × Int) × β) → (Int × Int) → List ((Int × Int) × β)
  | [], _ => []
  | (k, v) :: rest, a => if k = a then rest else (k, v) :: dictErase rest a

def dictKeys {β : Type} (d : List ((Int × Int) × β)) : List (Int × Int) :=
  d.map (fun e => e.1)

def dictValues {β : Type} (d : List ((Int × Int) × β)) : List β :=
  d.map (fun e => e.2)

/-- Python `set.add`. -/
def setInsert (s : List (Int × Int)) (k : Int × Int) : List (Int × Int) :=
  if k ∈ s then s else s ++ [k]

/-! ## RenderRegion -/

/-- `RenderRegion`: a group of RenderChunks sharing one merged buffer.
`chunks` is the coordinate-keyed dict, `manual_chunks` the not-yet-merged
(pending) list; `vao`/`vbo`/`draw_count` the merged-buffer GL state. -/
structure RenderRegion where
  rx : Int
  rz : Int
  chunks : List ((Int × Int) × RenderChunk)
  manual_chunks : List RenderChunk
  vao : Option Nat
  vbo : Option Nat
  draw_count : Nat
deriving DecidableEq

/-- Result of a `RenderRegion` operation: the updated region, the updated
world and the GL events it issued, in order. -/
structure RegionStep where
  region : RenderRegion
  world : World
  events : List GLEvent

/-- `RenderRegion.__init__` (the identifier, shader and the region transform
computed from `rx, rz, region_size` are omitted as opaque). -/
def RenderRegion.init (rx rz : Int) : RenderRegion :=
  { rx := rx, rz := rz, chunks := [], manual_chunks := [], vao := none,
    vbo := none, draw_count := 0 }

/-- `RenderRegion.add_render_chunk`: insert into the dict keyed by chunk
coordinate and append to the pending list. -/
def RenderRegion.add_render_chunk (r : RenderRegion) (c : RenderChunk) : RenderRegion :=
  { r with chunks := dictInsert r.chunks (c.cx, c.cz) c,
           manual_chunks := r.manual_chunks ++ [c] }

/-- `RenderRegion.__contains__`. -/
def RenderRegion.containsCoord (r : RenderRegion) (cc : Int × Int) : Bool :=
  (dictLookup r.chunks cc).isSome

/-- `RenderRegion._setup`: if no VAO exists yet, generate a vertex array and a
buffer and upload an empty buffer (the attribute-pointer layout and shader
lookup carry no observable state for the claims). -/
def RenderRegion.setup (r : RenderRegion) (w : World) : RegionStep :=
  match r.vao with
  | some _ => { region := r, world := w, events := [] }
  | none =>
    { region := { r with vao := some w.nextHandle, vbo := some (w.nextHandle + 1) },
      world := { w with nextHandle := w.nextHandle + 2,
                        liveVaos := w.liveVaos ++ [w.nextHandle],
                        liveVbos := w.liveVbos ++ [w.nextHandle + 1] },
      events := [GLEvent.bufferUpload (w.nextHandle + 1) []] }

/-- `RenderRegion.merge`: after `_setup`, if there are pending chunks, rebuild
the merged vertex table from the concatenation of every owned chunk's
payload, upload it, set the draw count to `verts.size // 10`, unload every
pending chunk and clear the pending list. -/
def RenderRegion.merge (r : RenderRegion) (w : World) : RegionStep :=
  let s := r.setup w
  if s.region.manual_chunks.isEmpty then s
  else
    let verts := ((dictValues s.region.chunks).map RenderChunk.chunk_lod0).flatten
    { region := { s.region with draw_count := verts.length / 10, manual_chunks := [] },
      world := s.region.manual_chunks.foldl RenderChunk.unload s.world,
      events := s.events ++ [GLEvent.bufferUpload (s.region.vbo.getD 0) verts] }

/-- `RenderRegion.unload`: delete the VAO if allocated (the VBO handle is not
deleted in the source), unload every chunk in the dict, clear the dict.
The source does not clear `_manual_chunks`. -/
def RenderRegion.unload (r : RenderRegion) (w : World) : RegionStep :=
  let s :=
    match r.vao with
    | some v =>
      ({ region := { r with vao := none },
         world := { w with liveVaos := w.liveVaos.erase v },
         events := [GLEvent.deleteVao v] } : RegionStep)
    | none => ({ region := r, world := w, events := [] } : RegionStep)
  { region := { s.region with chunks := [] },
    world := (dictValues s.region.chunks).foldl RenderChunk.unload s.world,
    events := s.events }

/-- `RenderRegion.draw`: after `_setup`, issue one draw call over the merged
vertices, then draw each pending chunk standalone. -/
def RenderRegion.draw (r : RenderRegion) (w : World) : RegionStep :=
  let s := r.setup w
  { region := s.region, world := s.world,
    events := s.events ++ [GLEvent.drawMerged (s.region.vao.getD 0) s.region.draw_count]
      ++ (s.region.manual_chunks.map (RenderChunk.drawEvents s.world)).flatten }

/-! ## ChunkManager -/

/-- `ChunkManager`: region dict, ingestion queue (`_chunk_temp`, FIFO with
head first) and its mirror membership set (`_chunk_temp_set`). -/
structure ChunkManager where
  region_size : Int
  regions : List ((Int × Int) × RenderRegion)
  chunk_temp : List RenderChunk
  chunk_temp_set : List (Int × Int)
deriving DecidableEq

/-- Result of a `ChunkManager` operation that touches the world. -/
structure ManagerStep where
  state : ChunkManager
  world : World
  events : List GLEvent

def ChunkManager.init (region_size : Int) : ChunkManager :=
  { region_size := region_size, regions := [], chunk_temp := [], chunk_temp_set := [] }

/-- `ChunkManager.add_render_chunk`: enqueue the unit and record its
coordinate in the pending-ingestion set. -/
def ChunkManager.add_render_chunk (s : ChunkManager) (c : RenderChunk) : ChunkManager :=
  { s with chunk_temp := s.chunk_temp ++ [c],
           chunk_temp_set := setInsert s.chunk_temp_set (c.cx, c.cz) }

/-- `ChunkManager.region_coords`: Python floor division by the region size. -/
def ChunkManager.region_coords (s : ChunkManager) (cx cz : Int) : Int × Int :=
  (Int.fdiv cx s.region_size, Int.fdiv cz s.region_size)

/-- One iteration of the `_merge_chunk_temp` loop: route a dequeued chunk to
its region, creating the region on first reference. -/
def ChunkManager.route (s : ChunkManager) (c : RenderChunk) : ChunkManager :=
  let rc := s.region_coords c.cx c.cz
  let reg := (dictLookup s.regions rc).getD (RenderRegion.init rc.1 rc.2)
  { s with regions := dictInsert s.regions rc (reg.add_render_chunk c) }

/-- `ChunkManager._merge_chunk_temp`: drain the whole queue into the region
dict, then clear the pending-ingestion set in one go. -/
def ChunkManager.merge_chunk_temp (s : ChunkManager) : ChunkManager :=
  { s.chunk_temp.foldl ChunkManager.route s with chunk_temp := [], chunk_temp_set := [] }

/-- `ChunkManager.__contains__`: in the pending-ingestion set, or resident in
the (existing) region for its region coordinate. -/
def ChunkManager.containsCoord (s : ChunkManager) (cc : Int × Int) : Bool :=
  decide (cc ∈ s.chunk_temp_set) ||
    (match dictLookup s.regions (s.region_coords cc.1 cc.2) with
     | some reg => reg.containsCoord cc
     | none => false)

/-- The region-drawing loop of `ChunkManager.draw` (regions are drawn in dict
order; `_setup` may update each region object in place). -/
def drawRegions : List ((Int × Int) × RenderRegion) → World →
    List ((Int × Int) × RenderRegion) × World × List GLEvent
  | [], w => ([], w, [])
  | (k, r) :: rest, w =>
    let p := r.draw w
    let q := drawRegions rest p.world
    ((k, p.region) :: q.1, q.2.1, p.events ++ q.2.2)

/-- `ChunkManager.draw`: draw every region, then drain the ingestion queue. -/
def ChunkManager.draw (s : ChunkManager) (w : World) : ManagerStep :=
  let p := drawRegions s.regions w
  { state := ChunkManager.merge_chunk_temp { s with regions := p.1 },
    world := p.2.1, events := p.2.2 }

/-- The region loop of `ChunkManager.unload(None)`. -/
def unloadRegionsAll : List ((Int × Int) × RenderRegion) → World → World × List GLEvent
  | [], w => (w, [])
  | (_, r) :: rest, w =>
    let p := r.unload w
    let q := unloadRegionsAll rest p.world
    (q.1, p.events ++ q.2)

/-- Result of the safe-area eviction loop of `ChunkManager.unload`. -/
structure EvictStep where
  entries : List ((Int × Int) × RenderRegion)
  world : World
  events : List GLEvent
  deleteKeys : List (Int × Int)

/-- The safe-area test of `ChunkManager.unload`:
`min_rx <= region.rx <= max_rx and min_rz <= region.rz <= max_rz`. -/
def inBox (lo hi : Int × Int) (r : RenderRegion) : Prop :=
  lo.1 ≤ r.rx ∧ r.rx ≤ hi.1 ∧ lo.2 ≤ r.rz ∧ r.rz ≤ hi.2

instance (lo hi : Int × Int) (r : RenderRegion) : Decidable (inBox lo hi r) := by
  unfold inBox
  infer_instance

/-- The safe-area loop of `ChunkManager.unload`: regions whose `(rx, rz)` lie
in the box are merged in place; the rest are unloaded and their `(rx, rz)`
collected for deletion after the loop. -/
def evictPass (lo hi : Int × Int) : List ((Int × Int) × RenderRegion) → World → EvictStep
  | [], w => { entries := [], world := w, events := [], deleteKeys := [] }
  | (k, r) :: rest, w =>
    if inBox lo hi r then
      let p := r.merge w
      let q := evictPass lo hi rest p.world
      { entries := (k, p.region) :: q.entries, world := q.world,
        events := p.events ++ q.events, deleteKeys := q.deleteKeys }
    else
      let p := r.unload w
      let q := evictPass lo hi rest p.world
      { entries := (k, p.region) :: q.entries, world := q.world,
        events := p.events ++ q.events, deleteKeys := q.deleteKeys ++ [(r.rx, r.rz)] }

/-- `ChunkManager.unload(safe_area)`: with no safe area, drain and discard the
queue, clear the set, unload every region and clear the region dict; with a
safe area `(x0, z0, x1, z1)`, merge regions inside the region-coordinate box
spanned by `region_coords(x0, z0)` and `region_coords(x1, z1)` and unload and
delete the rest. The queue and set are untouched in the safe-area branch. -/
def ChunkManager.unload (s : ChunkManager) (safe_area : Option (Int × Int × Int × Int))
    (w : World) : ManagerStep :=
  match safe_area with
  | none =>
    let p := unloadRegionsAll s.regions w
    { state := { s with chunk_temp := [], chunk_temp_set := [], regions := [] },
      world := p.1, events := p.2 }
  | some (x0, z0, x1, z1) =>
    let lo := s.region_coords x0 z0
    let hi := s.region_coords x1 z1
    let p := evictPass lo hi s.regions w
    { state := { s with regions := p.deleteKeys.foldl dictErase p.entries },
      world := p.world, events := p.events }

/-- The second disjunct of `__contains__`: the coordinate is resident in an
existing region of the region dict. -/
def ChunkManager.resident (s : ChunkManager) (cc : Int × Int) : Bool :=
  match dictLookup s.regions (s.region_coords cc.1 cc.2) with
  | some reg => reg.containsCoord cc
  | none => false

/-! ## Basic dictionary and set lemmas -/

theorem dictLookup_insert_self {β : Type} (d : List ((Int × Int) × β)) (k : Int × Int) (v : β) :
    dictLookup (dictInsert d k v) k = some v := by
  induction d with
  | nil => simp [dictInsert, dictLookup]
  | cons e rest ih =>
    by_cases h : e.1 = k
    · simp [dictInsert, dictLookup, h]
    · simp only [dictInsert, dictLookup, h, if_false]
      exact ih

theorem dictLookup_insert_ne {β : Type} (d : List ((Int × Int) × β)) (k a : Int × Int) (v : β)
    (h : a ≠ k) : dictLookup (dictInsert d k v) a = dictLookup d a := by
  have hka : ¬ k = a := fun hh => h hh.symm
  induction d with
  | nil => simp [dictInsert, dictLookup, hka]
  | cons e rest ih =>
    by_cases he : e.1 = k
    · simp only [dictInsert, he, if_true, dictLookup, hka, if_false]
    · by_cases ha : e.1 = a
      · simp [dictInsert, dictLookup, he, ha, h]
      · simp only [dictInsert, dictLookup, he, ha, if_false]
        exact ih

theorem dictLookup_isSome_iff_mem_keys {β : Type} (d : List ((Int × Int) × β)) (k : Int × Int) :
    (dictLookup d k).isSome ↔ k ∈ dictKeys d := by
  induction d with
  | nil => simp [dictLookup, dictKeys]
  | cons e rest ih =>
    by_cases h : e.1 = k
    · simp [dictLookup, dictKeys, h]
    · simp only [dictLookup, dictKeys, h, if_false, List.map_cons, List.mem_cons]
      rw [dictKeys] at ih
      rw [ih]
      constructor
      · exact Or.inr
      · rintro (hh | hh)
        · exact absurd hh.symm h
        · exact hh

theorem dictLookup_mem {β : Type} {d : List ((Int × Int) × β)} {k : Int × Int} {v : β}
    (h : dictLookup d k = some v) : (k, v) ∈ d := by
  induction d with
  | nil => simp [dictLookup] at h
  | cons e rest ih =>
    by_cases he : e.1 = k
    · rw [dictLookup, if_pos he] at h
      have he2 : e = (k, v) := by
        cases e with
        | mk k1 v1 =>
          cases h
          cases he
          rfl
      rw [he2]
      exact List.mem_cons_self _ _
    · rw [dictLookup, if_neg he] at h
      exact List.mem_cons_of_mem _ (ih h)

theorem mem_of_mem_dictInsert {β : Type} {d : List ((Int × Int) × β)} {k : Int × Int} {v : β}
    {e : (Int × Int) × β} (h : e ∈ dictInsert d k v) : e = (k, v) ∨ e ∈ d := by
  induction d with
  | nil => simpa [dictInsert] using h
  | cons f rest ih =>
    by_cases hf : f.1 = k
    · rw [dictInsert, if_pos hf] at h
      rcases List.mem_cons.mp h with h | h
      · exact Or.inl h
      · exact Or.inr (List.mem_cons_of_mem _ h)
    · rw [dictInsert, if_neg hf] at h
      rcases List.mem_cons.mp h with h | h
      · exact Or.inr (h ▸ List.mem_cons_self _ _)
      · rcases ih h with h | h
        · exact Or.inl h
        · exact Or.inr (List.mem_cons_of_mem _ h)

theorem mem_of_mem_dictErase {β : Type} {d : List ((Int × Int) × β)} {k : Int × Int}
    {e : (Int × Int) × β} (h : e ∈ dictErase d k) : e ∈ d := by
  induction d with
  | nil => simp [dictErase] at h
  | cons f rest ih =>
    by_cases hf : f.1 = k
    · rw [dictErase, if_pos hf] at h
      exact List.mem_cons_of_mem _ h
    · rw [dictErase, if_neg hf] at h
      rcases List.mem_cons.mp h with h | h
      · exact h ▸ List.mem_cons_self _ _
      · exact List.mem_cons_of_mem _ (ih h)

theorem mem_keys_dictInsert_self {β : Type} (d : List ((Int × Int) × β)) (k : Int × Int) (v : β) :
    k ∈ dictKeys (dictInsert d k v) := by
  rw [← dictLookup_isSome_iff_mem_keys, dictLookup_insert_self]
  rfl

theorem mem_keys_dictInsert_of_mem {β : Type} {d : List ((Int × Int) × β)} {a : Int × Int}
    (k : Int × Int) (v : β) (h : a ∈ dictKeys d) : a ∈ dictKeys (dictInsert d k v) := by
  by_cases hak : a = k
  · subst hak
    exact mem_keys_dictInsert_self d a v
  · rw [← dictLookup_isSome_iff_mem_keys, dictLookup_insert_ne d k a v hak,
      dictLookup_isSome_iff_mem_keys]
    exact h

theorem mem_setInsert_self (s : List (Int × Int)) (k : Int × Int) : k ∈ setInsert s k := by
  by_cases h : k ∈ s <;> simp [setInsert, h]

theorem mem_setInsert_of_mem {s : List (Int × Int)} {a : Int × Int} (k : Int × Int)
    (h : a ∈ s) : a ∈ setInsert s k := by
  by_cases hk : k ∈ s <;> simp [setInsert, hk, h]

/-! ## RenderChunk release lemmas -/

theorem foldl_unload_released_of_mem {l : List RenderChunk} {c : RenderChunk} (w : World)
    (h : c ∈ l) : (l.foldl RenderChunk.unload w).released c.id = true := by
  induction l generalizing w with
  | nil => cases h
  | cons d rest ih =>
    rcases List.mem_cons.mp h with h | h
    · subst h
      rw [List.foldl_cons]
      by_cases hm : c ∈ rest
      · exact ih _ hm
      · have : ∀ w2 : World, w2.released c.id = true →
            (rest.foldl RenderChunk.unload w2).released c.id = true := by
          intro w2 hw2
          clear ih h hm
          induction rest generalizing w2 with
          | nil => exact hw2
          | cons e tail ihh =>
            rw [List.foldl_cons]
            apply ihh
            by_cases he : e.id = c.id <;> simp [RenderChunk.unload, he, hw2]
        apply this
        simp [RenderChunk.unload]
    · exact ih _ h

theorem foldl_unload_released_mono {l : List RenderChunk} {i : Nat} (w : World)
    (h : w.released i = true) : (l.foldl RenderChunk.unload w).released i = true := by
  induction l generalizing w with
  | nil => exact h
  | cons d rest ih =>
    rw [List.foldl_cons]
    apply ih
    by_cases hd : i = d.id <;> simp [RenderChunk.unload, hd, h]

theorem foldl_unload_nextHandle (l : List RenderChunk) (w : World) :
    (l.foldl RenderChunk.unload w).nextHandle = w.nextHandle := by
  induction l generalizing w with
  | nil => rfl
  | cons d rest ih => rw [List.foldl_cons]; exact ih _

theorem foldl_unload_liveVaos (l : List RenderChunk) (w : World) :
    (l.foldl RenderChunk.unload w).liveVaos = w.liveVaos := by
  induction l generalizing w with
  | nil => rfl
  | cons d rest ih => rw [List.foldl_cons]; exact ih _

theorem foldl_unload_liveVbos (l : List RenderChunk) (w : World) :
    (l.foldl RenderChunk.unload w).liveVbos = w.liveVbos := by
  induction l generalizing w with
  | nil => rfl
  | cons d rest ih => rw [List.foldl_cons]; exact ih _

/-! ## RenderRegion projection lemmas -/

theorem setup_region_chunks (r : RenderRegion) (w : World) :
    (r.setup w).region.chunks = r.chunks := by
  cases hv : r.vao <;> simp [RenderRegion.setup, hv]

theorem setup_region_manual (r : RenderRegion) (w : World) :
    (r.setup w).region.manual_chunks = r.manual_chunks := by
  cases hv : r.vao <;> simp [RenderRegion.setup, hv]

theorem setup_region_rx (r : RenderRegion) (w : World) : (r.setup w).region.rx = r.rx := by
  cases hv : r.vao <;> simp [RenderRegion.setup, hv]

theorem setup_region_rz (r : RenderRegion) (w : World) : (r.setup w).region.rz = r.rz := by
  cases hv : r.vao <;> simp [RenderRegion.setup, hv]

theorem setup_region_vao_isSome (r : RenderRegion) (w : World) :
    (r.setup w).region.vao.isSome = true := by
  cases hv : r.vao <;> simp [RenderRegion.setup, hv]

theorem setup_world_released (r : RenderRegion) (w : World) :
    (r.setup w).world.released = w.released := by
  cases hv : r.vao <;> simp [RenderRegion.setup, hv]

theorem setup_of_vao_isSome {r : RenderRegion} (w : World) (h : r.vao.isSome = true) :
    r.setup w = { region := r, world := w, events := [] } := by
  cases hv : r.vao with
  | none => rw [hv] at h; cases h
  | some v => simp [RenderRegion.setup, hv]

theorem merge_region_manual (r : RenderRegion) (w : World) :
    (r.merge w).region.manual_chunks = [] := by
  simp only [RenderRegion.merge]
  split
  · next h => rw [List.isEmpty_iff.mp h]
  · rfl

theorem merge_region_chunks (r : RenderRegion) (w : World) :
    (r.merge w).region.chunks = r.chunks := by
  simp only [RenderRegion.merge]
  split
  · exact setup_region_chunks r w
  · exact setup_region_chunks r w

theorem merge_region_rx (r : RenderRegion) (w : World) : (r.merge w).region.rx = r.rx := by
  simp only [RenderRegion.merge]
  split
  · exact setup_region_rx r w
  · exact setup_region_rx r w

theorem merge_region_rz (r : RenderRegion) (w : World) : (r.merge w).region.rz = r.rz := by
  simp only [RenderRegion.merge]
  split
  · exact setup_region_rz r w
  · exact setup_region_rz r w

theorem merge_region_vao_isSome (r : RenderRegion) (w : World) :
    (r.merge w).region.vao.isSome = true := by
  simp only [RenderRegion.merge]
  split
  · exact setup_region_vao_isSome r w
  · exact setup_region_vao_isSome r w

theorem merge_world_released_of_mem_manual {r : RenderRegion} {c : RenderChunk} (w : World)
    (h : c ∈ r.manual_chunks) : (r.merge w).world.released c.id = true := by
  simp only [RenderRegion.merge]
  split
  · next hemp =>
    rw [setup_region_manual] at hemp
    rw [List.isEmpty_iff.mp hemp] at h
    cases h
  · apply foldl_unload_released_of_mem
    rw [setup_region_manual]
    exact h

theorem merge_world_released_mono {r : RenderRegion} {i : Nat} (w : World)
    (h : w.released i = true) : (r.merge w).world.released i = true := by
  simp only [RenderRegion.merge]
  split
  · rw [setup_world_released]
    exact h
  · apply foldl_unload_released_mono
    rw [setup_world_released]
    exact h

theorem unload_region_chunks (r : RenderRegion) (w : World) :
    (r.unload w).region.chunks = [] := by
  unfold RenderRegion.unload
  cases hv : r.vao <;> simp [hv]

theorem unload_region_manual (r : RenderRegion) (w : World) :
    (r.unload w).region.manual_chunks = r.manual_chunks := by
  unfold RenderRegion.unload
  cases hv : r.vao <;> simp [hv]

theorem unload_world_released_of_mem {r : RenderRegion} {c : RenderChunk} (w : World)
    (h : c ∈ dictValues r.chunks) : (r.unload w).world.released c.id = true := by
  unfold RenderRegion.unload
  cases hv : r.vao <;> simp only [hv] <;> exact foldl_unload_released_of_mem _ h

theorem unload_world_released_mono {r : RenderRegion} {i : Nat} (w : World)
    (h : w.released i = true) : (r.unload w).world.released i = true := by
  unfold RenderRegion.unload
  cases hv : r.vao <;> simp only [hv] <;> exact foldl_unload_released_mono _ h

theorem draw_region_chunks (r : RenderRegion) (w : World) :
    (r.draw w).region.chunks = r.chunks := by
  unfold RenderRegion.draw
  exact setup_region_chunks r w

theorem draw_region_manual (r : RenderRegion) (w : World) :
    (r.draw w).region.manual_chunks = r.manual_chunks := by
  unfold RenderRegion.draw
  exact setup_region_manual r w

theorem draw_region_rx (r : RenderRegion) (w : World) : (r.draw w).region.rx = r.rx := by
  unfold RenderRegion.draw
  exact setup_region_rx r w

theorem draw_region_rz (r : RenderRegion) (w : World) : (r.draw w).region.rz = r.rz := by
  unfold RenderRegion.draw
  exact setup_region_rz r w

theorem draw_world_released (r : RenderRegion) (w : World) :
    (r.draw w).world.released = w.released := by
  unfold RenderRegion.draw
  exact setup_world_released r w

theorem draw_events_of_mem_manual {r : RenderRegion} {c : RenderChunk} (w : World)
    (hm : c ∈ r.manual_chunks) (hr : w.released c.id = false) :
    GLEvent.drawChunk c.id ∈ (r.draw w).events := by
  unfold RenderRegion.draw
  simp only [List.mem_append]
  right
  rw [List.mem_flatten]
  refine ⟨RenderChunk.drawEvents (r.setup w).world c, ?_, ?_⟩
  · apply List.mem_map_of_mem
    rw [setup_region_manual]
    exact hm
  · rw [RenderChunk.drawEvents, setup_world_released, hr]
    simp

theorem draw_events_drawChunk_mem {r : RenderRegion} {i : Nat} (w : World)
    (h : GLEvent.drawChunk i ∈ (r.draw w).events) : i ∈ r.manual_chunks.map RenderChunk.id := by
  unfold RenderRegion.draw at h
  simp only [List.mem_append] at h
  rcases h with (h | h) | h
  · cases hv : r.vao <;> rw [RenderRegion.setup] at h <;> simp [hv] at h
  · simp at h
  · rw [List.mem_flatten] at h
    obtain ⟨l, hl, hel⟩ := h
    rw [List.mem_map] at hl
    obtain ⟨c, hc, hlc⟩ := hl
    rw [setup_region_manual] at hc
    rw [← hlc, RenderChunk.drawEvents] at hel
    split at hel
    · cases hel
    · rcases List.mem_singleton.mp hel with h2
      cases h2
      exact List.mem_map_of_mem RenderChunk.id hc

/-- On a region with no pending chunks and an already-allocated VAO, `merge`
does nothing at all. -/
theorem merge_of_manual_nil_vao_isSome {r : RenderRegion} (w : World)
    (hm : r.manual_chunks = []) (hv : r.vao.isSome = true) :
    r.merge w = { region := r, world := w, events := [] } := by
  simp only [RenderRegion.merge]
  rw [setup_of_vao_isSome w hv]
  simp [hm]

/-- C5: calling `merge()` twice in a row with no intervening `addUnit` is a
no-op on the second call: the region (merged-buffer handle, draw count and
content) and the world (no release, no allocation) are unchanged and no GL
event — in particular no redundant buffer upload — is issued. -/
theorem C5_merge_idempotent (r : RenderRegion) (w : World) :
    (r.merge w).region.merge (r.merge w).world =
      { region := (r.merge w).region, world := (r.merge w).world, events := [] } :=
  merge_of_manual_nil_vao_isSome (r.merge w).world (merge_region_manual r w)
    (merge_region_vao_isSome r w)

/-! ## Concrete inputs for counterexamples and witnesses -/

/-- A concrete unit at chunk coordinate (0, 0). -/
def chunkA : RenderChunk := { id := 0, cx := 0, cz := 0, chunk_lod0 := [1, 2, 3, 4, 5, 6, 7, 8, 9, 10] }

/-- A second, distinct unit at the same chunk coordinate (0, 0). -/
def chunkB : RenderChunk := { id := 1, cx := 0, cz := 0, chunk_lod0 := [11, 12, 13, 14, 15, 16, 17, 18, 19, 20] }

def exM1 : ChunkManager := (ChunkManager.init 16).add_render_chunk chunkA

def exM2 : ManagerStep := exM1.draw World.init

def exM3 : ChunkManager := exM2.state.add_render_chunk chunkB

/-- After this draw, `chunkB` has been routed into region (0, 0), replacing
`chunkA` in the owned map. -/
def exM4 : ManagerStep := exM3.draw exM2.world

def exM5 : ManagerStep := exM4.state.draw exM4.world

/-- C1 counterexample: submit `chunkA` for (0, 0), drain it, then submit the
replacement `chunkB` for (0, 0) and drain it. After the replacement is routed
the owned map indeed holds only the new unit, but the old unit's payload is
still drawn on the following draw call (it is still in the pending list) and
its GPU resources have not been released — refuting the claim that the old
payload is no longer drawn and the old resources are released. Moreover,
even `unload()` never releases the replaced stale unit: it releases only the
units still in the owned map, so on a region holding the stale `chunkA` in
its pending list and `chunkB` in its map, unload releases `chunkB` but not
`chunkA` — the next merge is the only point that releases it. -/
theorem C1_counterexample :
    dictLookup ((dictLookup exM4.state.regions (0, 0)).getD (RenderRegion.init 0 0)).chunks
        (0, 0) = some chunkB ∧
    chunkA ∈ ((dictLookup exM4.state.regions (0, 0)).getD (RenderRegion.init 0 0)).manual_chunks ∧
    GLEvent.drawChunk chunkA.id ∈ exM5.events ∧
    exM4.world.released chunkA.id = false ∧
    ((((RenderRegion.init 0 0).add_render_chunk chunkA).add_render_chunk chunkB).unload
        World.init).world.released chunkA.id = false ∧
    ((((RenderRegion.init 0 0).add_render_chunk chunkA).add_render_chunk chunkB).unload
        World.init).world.released chunkB.id = true := by
  decide

/-- C1 (amended): submitting a unit for a coordinate already present is a
replacement in the owned map — after routing, the map holds only the new unit
for that coordinate. The old unit, however, stays in the region's pending
list if it had not been merged, continues to be drawn standalone, and its GPU
resources are released only at the region's next merge, which releases every
pending unit (`unload` releases only units still in the owned map, so it
never releases the replaced stale unit — see the counterexample above). -/
theorem C1_amended_replacement (r : RenderRegion) (w : World) (c : RenderChunk) :
    dictLookup (r.add_render_chunk c).chunks (c.cx, c.cz) = some c ∧
    ∀ u ∈ (r.add_render_chunk c).manual_chunks,
      ((r.add_render_chunk c).merge w).world.released u.id = true := by
  constructor
  · exact dictLookup_insert_self r.chunks (c.cx, c.cz) c
  · intro u hu
    exact merge_world_released_of_mem_manual w hu

theorem C1_amended_replacement_witness :
    dictLookup (((RenderRegion.init 0 0).add_render_chunk chunkA).add_render_chunk chunkB).chunks
        (chunkB.cx, chunkB.cz) = some chunkB ∧
    ((((RenderRegion.init 0 0).add_render_chunk chunkA).add_render_chunk chunkB).merge
        World.init).world.released chunkA.id = true :=
  ⟨(C1_amended_replacement ((RenderRegion.init 0 0).add_render_chunk chunkA) World.init chunkB).1,
    (C1_amended_replacement ((RenderRegion.init 0 0).add_render_chunk chunkA) World.init chunkB).2
      chunkA (by decide)⟩

/-- C2 counterexample: the pending list is not always a subset of the units
owned by the coordinate map. (i) After adding two units with the same chunk
coordinate, the stale first unit is still pending but is no longer the unit
mapped by its coordinate. (ii) After `unload()`, the pending list is not
cleared while the owned map is, so a pending unit is owned by no coordinate
at all. -/
theorem C2_counterexample :
    (chunkA ∈ (((RenderRegion.init 0 0).add_render_chunk chunkA).add_render_chunk
        chunkB).manual_chunks ∧
      dictLookup (((RenderRegion.init 0 0).add_render_chunk chunkA).add_render_chunk
        chunkB).chunks (0, 0) ≠ some chunkA) ∧
    ((((RenderRegion.init 0 0).add_render_chunk chunkA).unload
        World.init).region.manual_chunks ≠ [] ∧
      (((RenderRegion.init 0 0).add_render_chunk chunkA).unload
        World.init).region.chunks = []) := by
  decide

/-- A single-region operation from the claim's vocabulary (addUnit, merge,
draw; unload is excluded by the amended claim). -/
inductive RegionOp where
  | addU : RenderChunk → RegionOp
  | mergeU : RegionOp
  | drawU : RegionOp

def RegionOp.apply (p : RenderRegion × World) (op : RegionOp) : RenderRegion × World :=
  match op with
  | RegionOp.addU c => (p.1.add_render_chunk c, p.2)
  | RegionOp.mergeU => ((p.1.merge p.2).region, (p.1.merge p.2).world)
  | RegionOp.drawU => ((p.1.draw p.2).region, (p.1.draw p.2).world)

/-- Run a sequence of region operations on a freshly created region. -/
def runRegionOps (rx rz : Int) (ops : List RegionOp) : RenderRegion × World :=
  ops.foldl RegionOp.apply (RenderRegion.init rx rz, World.init)

/-- Coordinate-level inclusion of the pending list in the owned map. -/
def pendingKeysSub (r : RenderRegion) : Prop :=
  ∀ u ∈ r.manual_chunks, (u.cx, u.cz) ∈ dictKeys r.chunks

theorem pendingKeysSub_apply {p : RenderRegion × World} (op : RegionOp)
    (h : pendingKeysSub p.1) : pendingKeysSub (RegionOp.apply p op).1 := by
  cases op with
  | addU c =>
    intro u hu
    simp only [RegionOp.apply, RenderRegion.add_render_chunk] at hu ⊢
    rcases List.mem_append.mp hu with hu | hu
    · exact mem_keys_dictInsert_of_mem _ _ (h u hu)
    · rw [List.mem_singleton.mp hu]
      exact mem_keys_dictInsert_self _ _ _
  | mergeU =>
    intro u hu
    simp only [RegionOp.apply] at hu
    rw [merge_region_manual] at hu
    cases hu
  | drawU =>
    intro u hu
    simp only [RegionOp.apply] at hu ⊢
    rw [draw_region_manual] at hu
    rw [draw_region_chunks]
    exact h u hu

theorem pendingKeysSub_foldl {p : RenderRegion × World} (ops : List RegionOp)
    (h : pendingKeysSub p.1) : pendingKeysSub (ops.foldl RegionOp.apply p).1 := by
  induction ops generalizing p with
  | nil => exact h
  | cons op rest ih =>
    rw [List.foldl_cons]
    exact ih (pendingKeysSub_apply op h)

/-- C2 (amended): for every sequence of addUnit, merge and draw operations on
a freshly created region, every unit in the pending list has its chunk
coordinate among the keys of the owned map. The stronger form fails: the
pending unit need not be the unit currently mapped by its coordinate (a
re-added coordinate leaves the stale unit pending), and after `unload()` the
pending list is not cleared while the map is, so even this coordinate-level
inclusion does not survive unload. -/
theorem C2_amended_pending_keys_subset (rx rz : Int) (ops : List RegionOp)
    (u : RenderChunk) (hu : u ∈ (runRegionOps rx rz ops).1.manual_chunks) :
    (u.cx, u.cz) ∈ dictKeys (runRegionOps rx rz ops).1.chunks := by
  have hinit : pendingKeysSub (RenderRegion.init rx rz) := by
    intro v hv
    cases hv
  exact pendingKeysSub_foldl ops hinit u hu

theorem C2_amended_pending_keys_subset_witness :
    chunkA ∈ (runRegionOps 0 0 [RegionOp.addU chunkA]).1.manual_chunks ∧
    (chunkA.cx, chunkA.cz) ∈ dictKeys (runRegionOps 0 0 [RegionOp.addU chunkA]).1.chunks :=
  ⟨by decide, C2_amended_pending_keys_subset 0 0 [RegionOp.addU chunkA] chunkA (by decide)⟩

def exR1 : RegionStep := ((RenderRegion.init 0 0).add_render_chunk chunkA).merge World.init

def exR2 : RegionStep := exR1.region.unload exR1.world

def exR3 : RegionStep := ((RenderRegion.init 0 0).add_render_chunk chunkA).unload World.init

/-- C3: evaluation of `unload()` at the failing inputs. After add + merge +
unload, the vertex array has been deleted but the vertex buffer allocated by
`_setup` is still live (the source deletes only the VAO) and the region still
holds the stale VBO handle; after add + unload (unit still pending), the
pending list is not cleared even though the owned map is — contradicting the
claim that the merged buffer (vertex array and vertex buffer) is released and
all owned state including the pending list is cleared. The release of owned
units does happen (`released chunkA` is true). -/
theorem C3_unload_divergence :
    exR2.world.liveVaos = [] ∧
    exR2.world.liveVbos = [1] ∧
    exR2.region.vbo = some 1 ∧
    exR2.world.released chunkA.id = true ∧
    exR3.region.manual_chunks = [chunkA] ∧
    exR3.region.chunks = [] ∧
    exR3.world.released chunkA.id = true := by
  decide

/-- C6: after `unload(None)` the ingestion queue and the pending-ingestion
set are empty, the owned region map is empty, and `contains` returns false
for every chunk coordinate (in particular every coordinate ever submitted). -/
theorem C6_unload_none_complete (s : ChunkManager) (w : World) :
    (s.unload none w).state.chunk_temp = [] ∧
    (s.unload none w).state.chunk_temp_set = [] ∧
    (s.unload none w).state.regions = [] ∧
    ∀ cc : Int × Int, (s.unload none w).state.containsCoord cc = false := by
  refine ⟨rfl, rfl, rfl, fun cc => ?_⟩
  simp [ChunkManager.unload, ChunkManager.containsCoord, dictLookup]

/-! ## ChunkManager routing and containment lemmas -/

theorem resident_eq_true_iff (s : ChunkManager) (cc : Int × Int) :
    s.resident cc = true ↔
      ∃ reg, dictLookup s.regions (s.region_coords cc.1 cc.2) = some reg ∧
        reg.containsCoord cc = true := by
  unfold ChunkManager.resident
  cases hl : dictLookup s.regions (s.region_coords cc.1 cc.2) with
  | none => simp [hl]
  | some reg => simp [hl]

theorem containsCoord_of_mem_set {s : ChunkManager} {cc : Int × Int}
    (h : cc ∈ s.chunk_temp_set) : s.containsCoord cc = true := by
  rw [ChunkManager.containsCoord]
  simp [h]

theorem containsCoord_of_resident {s : ChunkManager} {cc : Int × Int}
    (h : s.resident cc = true) : s.containsCoord cc = true := by
  rw [ChunkManager.containsCoord]
  rw [ChunkManager.resident] at h
  rw [h]
  simp

theorem containsCoord_add_self (r : RenderRegion) (c : RenderChunk) :
    (r.add_render_chunk c).containsCoord (c.cx, c.cz) = true := by
  simp only [RenderRegion.containsCoord, RenderRegion.add_render_chunk]
  rw [dictLookup_insert_self]
  rfl

theorem containsCoord_add_mono {r : RenderRegion} {cc : Int × Int} (c : RenderChunk)
    (h : r.containsCoord cc = true) : (r.add_render_chunk c).containsCoord cc = true := by
  simp only [RenderRegion.containsCoord, RenderRegion.add_render_chunk] at h ⊢
  by_cases hcc : cc = (c.cx, c.cz)
  · subst hcc
    rw [dictLookup_insert_self]
    rfl
  · rw [dictLookup_insert_ne _ _ _ _ hcc]
    exact h

theorem route_region_size (s : ChunkManager) (c : RenderChunk) :
    (s.route c).region_size = s.region_size := rfl

theorem route_chunk_temp (s : ChunkManager) (c : RenderChunk) :
    (s.route c).chunk_temp = s.chunk_temp := rfl

theorem route_region_coords (s : ChunkManager) (c : RenderChunk) (cx cz : Int) :
    (s.route c).region_coords cx cz = s.region_coords cx cz := rfl

theorem route_resident_self (s : ChunkManager) (c : RenderChunk) :
    (s.route c).resident (c.cx, c.cz) = true := by
  rw [resident_eq_true_iff]
  refine ⟨((dictLookup s.regions (s.region_coords c.cx c.cz)).getD
      (RenderRegion.init (s.region_coords c.cx c.cz).1
        (s.region_coords c.cx c.cz).2)).add_render_chunk c, ?_, ?_⟩
  · show dictLookup (dictInsert s.regions (s.region_coords c.cx c.cz) _)
      ((s.route c).region_coords c.cx c.cz) = _
    rw [route_region_coords]
    rw [dictLookup_insert_self]
  · exact containsCoord_add_self _ c

theorem route_resident_mono {s : ChunkManager} {cc : Int × Int} (c : RenderChunk)
    (h : s.resident cc = true) : (s.route c).resident cc = true := by
  rw [resident_eq_true_iff] at h ⊢
  obtain ⟨reg, hl, hc⟩ := h
  rw [route_region_coords]
  by_cases hk : s.region_coords c.cx c.cz = s.region_coords cc.1 cc.2
  · refine ⟨reg.add_render_chunk c, ?_, containsCoord_add_mono c hc⟩
    simp only [ChunkManager.route]
    rw [hk, hl, dictLookup_insert_self]
    rfl
  · refine ⟨reg, ?_, hc⟩
    simp only [ChunkManager.route]
    rw [dictLookup_insert_ne _ _ _ _ (fun hh => hk hh.symm)]
    exact hl

theorem foldl_route_region_size (l : List RenderChunk) (s : ChunkManager) :
    (l.foldl ChunkManager.route s).region_size = s.region_size := by
  induction l generalizing s with
  | nil => rfl
  | cons c rest ih => rw [List.foldl_cons, ih, route_region_size]

theorem foldl_route_resident_mono {l : List RenderChunk} {cc : Int × Int} (s : ChunkManager)
    (h : s.resident cc = true) : (l.foldl ChunkManager.route s).resident cc = true := by
  induction l generalizing s with
  | nil => exact h
  | cons c rest ih => rw [List.foldl_cons]; exact ih _ (route_resident_mono c h)

theorem foldl_route_resident_of_mem {l : List RenderChunk} {c : RenderChunk} (s : ChunkManager)
    (h : c ∈ l) : (l.foldl ChunkManager.route s).resident (c.cx, c.cz) = true := by
  induction l generalizing s with
  | nil => cases h
  | cons d rest ih =>
    rw [List.foldl_cons]
    rcases List.mem_cons.mp h with h | h
    · subst h
      exact foldl_route_resident_mono _ (route_resident_self s c)
    · exact ih _ h

theorem merge_chunk_temp_resident_of_mem {s : ChunkManager} {c : RenderChunk}
    (h : c ∈ s.chunk_temp) : s.merge_chunk_temp.resident (c.cx, c.cz) = true := by
  have hres := foldl_route_resident_of_mem s h
  rw [resident_eq_true_iff] at hres ⊢
  obtain ⟨reg, hl, hc⟩ := hres
  refine ⟨reg, ?_, hc⟩
  show dictLookup (s.chunk_temp.foldl ChunkManager.route s).regions
    (s.merge_chunk_temp.region_coords c.cx c.cz) = some reg
  have : s.merge_chunk_temp.region_coords c.cx c.cz =
      (s.chunk_temp.foldl ChunkManager.route s).region_coords c.cx c.cz := rfl
  rw [this]
  exact hl

theorem add_render_chunk_regions (s : ChunkManager) (c : RenderChunk) :
    (s.add_render_chunk c).regions = s.regions := rfl

theorem foldl_add_chunk_temp (us : List RenderChunk) (s : ChunkManager) :
    (us.foldl ChunkManager.add_render_chunk s).chunk_temp = s.chunk_temp ++ us := by
  induction us generalizing s with
  | nil => simp
  | cons d rest ih =>
    rw [List.foldl_cons, ih]
    show s.chunk_temp ++ [d] ++ rest = _
    simp

theorem foldl_add_mem_set_mono {us : List RenderChunk} {a : Int × Int} (s : ChunkManager)
    (h : a ∈ s.chunk_temp_set) :
    a ∈ (us.foldl ChunkManager.add_render_chunk s).chunk_temp_set := by
  induction us generalizing s with
  | nil => exact h
  | cons d rest ih =>
    rw [List.foldl_cons]
    exact ih _ (mem_setInsert_of_mem _ h)

theorem foldl_add_mem_set {us : List RenderChunk} {c : RenderChunk} (s : ChunkManager)
    (h : c ∈ us) :
    (c.cx, c.cz) ∈ (us.foldl ChunkManager.add_render_chunk s).chunk_temp_set := by
  induction us generalizing s with
  | nil => cases h
  | cons d rest ih =>
    rw [List.foldl_cons]
    rcases List.mem_cons.mp h with h | h
    · subst h
      exact foldl_add_mem_set_mono _ (mem_setInsert_self _ _)
    · exact ih _ h

/-- C7: for every sequence of `add_render_chunk` calls followed by one `draw`,
every submitted coordinate satisfies `contains` while it is still in the
ingestion queue (it is in the pending-ingestion set, so this covers the state
immediately after its submission — apply the theorem to the prefix ending at
that submission) and still satisfies `contains` after `draw` has drained the
queue into the region map (the unit is then resident in its region). -/
theorem C7_contains_through_drain (s0 : ChunkManager) (w : World) (us : List RenderChunk)
    (c : RenderChunk) (hc : c ∈ us) :
    (us.foldl ChunkManager.add_render_chunk s0).containsCoord (c.cx, c.cz) = true ∧
    ((us.foldl ChunkManager.add_render_chunk s0).draw w).state.containsCoord
      (c.cx, c.cz) = true := by
  constructor
  · exact containsCoord_of_mem_set (foldl_add_mem_set s0 hc)
  · apply containsCoord_of_resident
    apply merge_chunk_temp_resident_of_mem
    show c ∈ (us.foldl ChunkManager.add_render_chunk s0).chunk_temp
    rw [foldl_add_chunk_temp]
    exact List.mem_append_right _ hc

theorem C7_contains_through_drain_witness :
    chunkA ∈ [chunkA, chunkB] ∧
    (([chunkA, chunkB].foldl ChunkManager.add_render_chunk
        (ChunkManager.init 16)).containsCoord (chunkA.cx, chunkA.cz) = true ∧
      (([chunkA, chunkB].foldl ChunkManager.add_render_chunk
          (ChunkManager.init 16)).draw World.init).state.containsCoord
        (chunkA.cx, chunkA.cz) = true) :=
  ⟨by decide, C7_contains_through_drain (ChunkManager.init 16) World.init
    [chunkA, chunkB] chunkA (by decide)⟩

/-! ## Draw-loop lemmas -/

theorem drawRegions_world_released (l : List ((Int × Int) × RenderRegion)) (w : World) :
    (drawRegions l w).2.1.released = w.released := by
  induction l generalizing w with
  | nil => rfl
  | cons e rest ih =>
    obtain ⟨k, r⟩ := e
    simp only [drawRegions]
    rw [ih, draw_world_released]

theorem drawRegions_events_drawChunk_mem {l : List ((Int × Int) × RenderRegion)} {i : Nat}
    (w : World) (h : GLEvent.drawChunk i ∈ (drawRegions l w).2.2) :
    i ∈ (l.map (fun e => e.2.manual_chunks.map RenderChunk.id)).flatten := by
  induction l generalizing w with
  | nil => cases h
  | cons e rest ih =>
    obtain ⟨k, r⟩ := e
    simp only [drawRegions] at h
    rw [List.map_cons, List.flatten_cons]
    rcases List.mem_append.mp h with h | h
    · exact List.mem_append_left _ (draw_events_drawChunk_mem w h)
    · exact List.mem_append_right _ (ih _ h)

theorem drawRegions_events_of_mem {l : List ((Int × Int) × RenderRegion)}
    {k : Int × Int} {r : RenderRegion} {c : RenderChunk} (w : World)
    (he : (k, r) ∈ l) (hm : c ∈ r.manual_chunks) (hr : w.released c.id = false) :
    GLEvent.drawChunk c.id ∈ (drawRegions l w).2.2 := by
  induction l generalizing w with
  | nil => cases he
  | cons e rest ih =>
    obtain ⟨k1, r1⟩ := e
    simp only [drawRegions, List.mem_append]
    rcases List.mem_cons.mp he with he | he
    · left
      cases he
      exact draw_events_of_mem_manual w hm hr
    · right
      apply ih _ he
      rw [draw_world_released]
      exact hr

/-- Membership of a unit object in the pending list of the region owning its
coordinate. -/
def ChunkManager.inManual (s : ChunkManager) (c : RenderChunk) : Prop :=
  ∃ reg, dictLookup s.regions (s.region_coords c.cx c.cz) = some reg ∧
    c ∈ reg.manual_chunks

theorem inManual_route_self (s : ChunkManager) (c : RenderChunk) :
    (s.route c).inManual c := by
  refine ⟨((dictLookup s.regions (s.region_coords c.cx c.cz)).getD
      (RenderRegion.init (s.region_coords c.cx c.cz).1
        (s.region_coords c.cx c.cz).2)).add_render_chunk c, ?_, ?_⟩
  · exact dictLookup_insert_self s.regions (s.region_coords c.cx c.cz) _
  · simp only [RenderRegion.add_render_chunk]
    exact List.mem_append_right _ (List.mem_singleton_self c)

theorem inManual_route_mono {s : ChunkManager} {c : RenderChunk} (d : RenderChunk)
    (h : s.inManual c) : (s.route d).inManual c := by
  obtain ⟨reg, hl, hm⟩ := h
  rw [ChunkManager.inManual, route_region_coords]
  by_cases hk : s.region_coords d.cx d.cz = s.region_coords c.cx c.cz
  · refine ⟨reg.add_render_chunk d, ?_, ?_⟩
    · simp only [ChunkManager.route]
      rw [hk, hl, dictLookup_insert_self]
      rfl
    · simp only [RenderRegion.add_render_chunk]
      exact List.mem_append_left _ hm
  · refine ⟨reg, ?_, hm⟩
    simp only [ChunkManager.route]
    rw [dictLookup_insert_ne _ _ _ _ (fun hh => hk hh.symm)]
    exact hl

theorem foldl_route_inManual_mono {l : List RenderChunk} {c : RenderChunk} (s : ChunkManager)
    (h : s.inManual c) : (l.foldl ChunkManager.route s).inManual c := by
  induction l generalizing s with
  | nil => exact h
  | cons d rest ih => rw [List.foldl_cons]; exact ih _ (inManual_route_mono d h)

theorem foldl_route_inManual_of_mem {l : List RenderChunk} {c : RenderChunk} (s : ChunkManager)
    (h : c ∈ l) : (l.foldl ChunkManager.route s).inManual c := by
  induction l generalizing s with
  | nil => cases h
  | cons d rest ih =>
    rw [List.foldl_cons]
    rcases List.mem_cons.mp h with h | h
    · subst h
      exact foldl_route_inManual_mono _ (inManual_route_self s c)
    · exact ih _ h

theorem merge_chunk_temp_inManual_of_mem {s : ChunkManager} {c : RenderChunk}
    (h : c ∈ s.chunk_temp) : s.merge_chunk_temp.inManual c := by
  obtain ⟨reg, hl, hm⟩ := foldl_route_inManual_of_mem s h
  exact ⟨reg, hl, hm⟩

/-- C9: `draw` first draws every region of the pre-drain region map and only
then drains the ingestion queue (the emitted GL trace is exactly the trace of
drawing the regions as they were when `draw` began — the drain emits
nothing); hence a unit that is in the ingestion queue when `draw` begins
(and is not already pending in a region under the same identity) is not
drawn during that call; it is drawn starting from the next `draw` call; and
the pending-ingestion set is cleared entirely by the drain. -/
theorem C9_draw_before_drain (s : ChunkManager) (w : World) (u : RenderChunk)
    (hu : u ∈ s.chunk_temp)
    (hfresh : u.id ∉ (s.regions.map (fun e => e.2.manual_chunks.map RenderChunk.id)).flatten)
    (hrel : w.released u.id = false) :
    (s.draw w).events = (drawRegions s.regions w).2.2 ∧
    GLEvent.drawChunk u.id ∉ (s.draw w).events ∧
    GLEvent.drawChunk u.id ∈ ((s.draw w).state.draw (s.draw w).world).events ∧
    (s.draw w).state.chunk_temp_set = [] := by
  refine ⟨rfl, ?_, ?_, rfl⟩
  · intro hmem
    exact hfresh (drawRegions_events_drawChunk_mem w hmem)
  · have hq : u ∈ ({ s with regions := (drawRegions s.regions w).1 } : ChunkManager).chunk_temp :=
      hu
    obtain ⟨reg, hl, hm⟩ := merge_chunk_temp_inManual_of_mem hq
    have hent := dictLookup_mem hl
    apply drawRegions_events_of_mem _ hent hm
    show (drawRegions s.regions w).2.1.released u.id = false
    rw [drawRegions_world_released]
    exact hrel

theorem C9_draw_before_drain_witness :
    (chunkA ∈ ((ChunkManager.init 16).add_render_chunk chunkA).chunk_temp ∧
      chunkA.id ∉ ((((ChunkManager.init 16).add_render_chunk chunkA).regions.map
        (fun e => e.2.manual_chunks.map RenderChunk.id)).flatten) ∧
      World.init.released chunkA.id = false) ∧
    ((((ChunkManager.init 16).add_render_chunk chunkA).draw World.init).events =
        (drawRegions ((ChunkManager.init 16).add_render_chunk chunkA).regions
          World.init).2.2 ∧
      GLEvent.drawChunk chunkA.id ∉
        (((ChunkManager.init 16).add_render_chunk chunkA).draw World.init).events ∧
      GLEvent.drawChunk chunkA.id ∈
        ((((ChunkManager.init 16).add_render_chunk chunkA).draw World.init).state.draw
          (((ChunkManager.init 16).add_render_chunk chunkA).draw World.init).world).events ∧
      (((ChunkManager.init 16).add_render_chunk chunkA).draw
        World.init).state.chunk_temp_set = []) :=
  ⟨⟨by decide, by decide, by decide⟩,
    C9_draw_before_drain ((ChunkManager.init 16).add_render_chunk chunkA) World.init chunkA
      (by decide) (by decide) (by decide)⟩

/-! ## Safe-area unload lemmas -/

theorem draw_state_resident_of_mem {s : ChunkManager} {c : RenderChunk} (w : World)
    (h : c ∈ s.chunk_temp) : (s.draw w).state.resident (c.cx, c.cz) = true :=
  merge_chunk_temp_resident_of_mem h

theorem unload_some_chunk_temp (s : ChunkManager) (w : World) (a : Int × Int × Int × Int) :
    (s.unload (some a) w).state.chunk_temp = s.chunk_temp := by
  obtain ⟨x0, z0, x1, z1⟩ := a
  rfl

theorem unload_some_chunk_temp_set (s : ChunkManager) (w : World) (a : Int × Int × Int × Int) :
    (s.unload (some a) w).state.chunk_temp_set = s.chunk_temp_set := by
  obtain ⟨x0, z0, x1, z1⟩ := a
  rfl

/-- C10: `unload` with a safe area leaves the ingestion queue and the
pending-ingestion set untouched: every not-yet-drained unit stays queued,
every coordinate in the pending-ingestion set (in particular that of every
submitted-but-undrained unit, even outside the safe area) still satisfies
`contains` afterwards, and the next `draw` routes each queued unit into its
(possibly freshly re-created) region, where it is then resident. -/
theorem C10_safe_unload_preserves_queue (s : ChunkManager) (w w2 : World)
    (a : Int × Int × Int × Int) (u : RenderChunk) (hu : u ∈ s.chunk_temp)
    (hset : (u.cx, u.cz) ∈ s.chunk_temp_set) :
    (s.unload (some a) w).state.chunk_temp = s.chunk_temp ∧
    (s.unload (some a) w).state.chunk_temp_set = s.chunk_temp_set ∧
    (s.unload (some a) w).state.containsCoord (u.cx, u.cz) = true ∧
    (((s.unload (some a) w).state.draw w2).state.resident (u.cx, u.cz) = true) := by
  refine ⟨unload_some_chunk_temp s w a, unload_some_chunk_temp_set s w a, ?_, ?_⟩
  · apply containsCoord_of_mem_set
    rw [unload_some_chunk_temp_set]
    exact hset
  · apply draw_state_resident_of_mem
    rw [unload_some_chunk_temp]
    exact hu

theorem C10_safe_unload_preserves_queue_witness :
    (chunkA ∈ ((ChunkManager.init 16).add_render_chunk chunkA).chunk_temp ∧
      (chunkA.cx, chunkA.cz) ∈ ((ChunkManager.init 16).add_render_chunk chunkA).chunk_temp_set) ∧
    ((((ChunkManager.init 16).add_render_chunk chunkA).unload (some (100, 100, 200, 200))
        World.init).state.chunk_temp =
      ((ChunkManager.init 16).add_render_chunk chunkA).chunk_temp ∧
    (((ChunkManager.init 16).add_render_chunk chunkA).unload (some (100, 100, 200, 200))
        World.init).state.chunk_temp_set =
      ((ChunkManager.init 16).add_render_chunk chunkA).chunk_temp_set ∧
    (((ChunkManager.init 16).add_render_chunk chunkA).unload (some (100, 100, 200, 200))
        World.init).state.containsCoord (chunkA.cx, chunkA.cz) = true ∧
    (((((ChunkManager.init 16).add_render_chunk chunkA).unload (some (100, 100, 200, 200))
        World.init).state.draw World.init).state.resident (chunkA.cx, chunkA.cz) = true)) :=
  ⟨⟨by decide, by decide⟩,
    C10_safe_unload_preserves_queue ((ChunkManager.init 16).add_render_chunk chunkA)
      World.init World.init (100, 100, 200, 200) chunkA (by decide) (by decide)⟩

theorem dictLookup_erase_ne {β : Type} (d : List ((Int × Int) × β)) (a k : Int × Int)
    (h : a ≠ k) : dictLookup (dictErase d a) k = dictLookup d k := by
  induction d with
  | nil => rfl
  | cons e rest ih =>
    by_cases he : e.1 = a
    · rw [dictErase, if_pos he, dictLookup, if_neg (he ▸ fun hh => h (he ▸ hh))]
    · rw [dictErase, if_neg he, dictLookup, dictLookup]
      by_cases hk : e.1 = k
      · rw [if_pos hk, if_pos hk]
      · rw [if_neg hk, if_neg hk]
        exact ih

theorem dictLookup_erase_none {β : Type} {d : List ((Int × Int) × β)} {k : Int × Int}
    (a : Int × Int) (h : dictLookup d k = none) :
    dictLookup (dictErase d a) k = none := by
  induction d with
  | nil => rfl
  | cons e rest ih =>
    by_cases hk : e.1 = k
    · rw [dictLookup, if_pos hk] at h
      cases h
    · rw [dictLookup, if_neg hk] at h
      by_cases ha : e.1 = a
      · rw [dictErase, if_pos ha]
        exact h
      · rw [dictErase, if_neg ha, dictLookup, if_neg hk]
        exact ih h

theorem dictKeys_erase_sublist {β : Type} (d : List ((Int × Int) × β)) (a : Int × Int) :
    (dictKeys (dictErase d a)).Sublist (dictKeys d) := by
  induction d with
  | nil => exact List.Sublist.refl _
  | cons e rest ih =>
    by_cases ha : e.1 = a
    · rw [dictErase, if_pos ha]
      exact List.sublist_cons_of_sublist _ (List.Sublist.refl _)
    · rw [dictErase, if_neg ha]
      exact List.Sublist.cons₂ _ ih

theorem dictLookup_erase_self_of_nodup {β : Type} {d : List ((Int × Int) × β)} {k : Int × Int}
    (h : (dictKeys d).Nodup) : dictLookup (dictErase d k) k = none := by
  induction d with
  | nil => rfl
  | cons e rest ih =>
    rw [dictKeys, List.map_cons, List.nodup_cons] at h
    by_cases he : e.1 = k
    · rw [dictErase, if_pos he]
      cases hl : dictLookup rest k with
      | none => rfl
      | some v =>
        exfalso
        apply h.1
        rw [he]
        exact (dictLookup_isSome_iff_mem_keys rest k).mp (by rw [hl]; rfl)
    · rw [dictErase, if_neg he, dictLookup, if_neg he]
      exact ih h.2

theorem foldl_erase_none {β : Type} {d : List ((Int × Int) × β)} {k : Int × Int}
    (dels : List (Int × Int)) (h : dictLookup d k = none) :
    dictLookup (dels.foldl dictErase d) k = none := by
  induction dels generalizing d with
  | nil => exact h
  | cons a rest ih =>
    rw [List.foldl_cons]
    exact ih (dictLookup_erase_none a h)

theorem foldl_erase_of_not_mem {β : Type} {dels : List (Int × Int)} {k : Int × Int}
    (d : List ((Int × Int) × β)) (h : k ∉ dels) :
    dictLookup (dels.foldl dictErase d) k = dictLookup d k := by
  induction dels generalizing d with
  | nil => rfl
  | cons a rest ih =>
    rw [List.foldl_cons]
    have hak : a ≠ k := fun hh => h (hh ▸ List.mem_cons_self a rest)
    rw [ih _ (fun hh => h (List.mem_cons_of_mem a hh)), dictLookup_erase_ne _ _ _ hak]

theorem foldl_erase_nodup {β : Type} (dels : List (Int × Int))
    (d : List ((Int × Int) × β)) (h : (dictKeys d).Nodup) :
    (dictKeys (dels.foldl dictErase d)).Nodup := by
  induction dels generalizing d with
  | nil => exact h
  | cons a rest ih =>
    rw [List.foldl_cons]
    exact ih _ (h.sublist (dictKeys_erase_sublist d a))

theorem foldl_erase_of_mem {β : Type} {dels : List (Int × Int)} {k : Int × Int}
    (d : List ((Int × Int) × β)) (hn : (dictKeys d).Nodup) (h : k ∈ dels) :
    dictLookup (dels.foldl dictErase d) k = none := by
  induction dels generalizing d with
  | nil => cases h
  | cons a rest ih =>
    rw [List.foldl_cons]
    by_cases ha : a = k
    · subst ha
      exact foldl_erase_none rest (dictLookup_erase_self_of_nodup hn)
    · rcases List.mem_cons.mp h with h | h
      · exact absurd h.symm ha
      · exact ih _ (hn.sublist (dictKeys_erase_sublist d a)) h

theorem dictLookup_of_mem_nodup {β : Type} {d : List ((Int × Int) × β)}
    {e : (Int × Int) × β} (hn : (dictKeys d).Nodup) (h : e ∈ d) :
    dictLookup d e.1 = some e.2 := by
  induction d with
  | nil => cases h
  | cons f rest ih =>
    rw [dictKeys, List.map_cons, List.nodup_cons] at hn
    rcases List.mem_cons.mp h with h | h
    · subst h
      rw [dictLookup, if_pos rfl]
    · rw [dictLookup]
      by_cases hf : f.1 = e.1
      · exfalso
        apply hn.1
        rw [hf]
        exact List.mem_map_of_mem (fun x => x.1) h
      · rw [if_neg hf]
        exact ih hn.2 h

theorem dictKeys_cons {β : Type} (e : (Int × Int) × β) (d : List ((Int × Int) × β)) :
    dictKeys (e :: d) = e.1 :: dictKeys d := rfl

theorem unload_region_rx (r : RenderRegion) (w : World) : (r.unload w).region.rx = r.rx := by
  unfold RenderRegion.unload
  cases hv : r.vao <;> simp [hv]

theorem unload_region_rz (r : RenderRegion) (w : World) : (r.unload w).region.rz = r.rz := by
  unfold RenderRegion.unload
  cases hv : r.vao <;> simp [hv]

theorem evictPass_dictKeys (lo hi : Int × Int) (l : List ((Int × Int) × RenderRegion))
    (w : World) : dictKeys (evictPass lo hi l w).entries = dictKeys l := by
  induction l generalizing w with
  | nil => rfl
  | cons e rest ih =>
    obtain ⟨k, r⟩ := e
    simp only [evictPass]
    split
    · rw [dictKeys_cons, ih, dictKeys_cons]
    · rw [dictKeys_cons, ih, dictKeys_cons]

theorem evictPass_lookup_some (lo hi : Int × Int) {l : List ((Int × Int) × RenderRegion)}
    {k : Int × Int} {r : RenderRegion} (w : World) (hl : dictLookup l k = some r) :
    ∃ r2, dictLookup (evictPass lo hi l w).entries k = some r2 ∧
      r2.rx = r.rx ∧ r2.rz = r.rz ∧ (inBox lo hi r → r2.manual_chunks = []) := by
  induction l generalizing w with
  | nil => cases hl
  | cons e rest ih =>
    obtain ⟨k1, r1⟩ := e
    by_cases hk : k1 = k
    · rw [dictLookup, if_pos hk] at hl
      cases hl
      simp only [evictPass]
      split
      · next hin =>
        exact ⟨(r.merge w).region, by rw [dictLookup, if_pos hk],
          merge_region_rx r w, merge_region_rz r w, fun _ => merge_region_manual r w⟩
      · next hnin =>
        exact ⟨(r.unload w).region, by rw [dictLookup, if_pos hk],
          unload_region_rx r w, unload_region_rz r w, fun hin => absurd hin hnin⟩
    · rw [dictLookup, if_neg hk] at hl
      simp only [evictPass]
      split
      · obtain ⟨r2, hr2, hx, hz, hm⟩ := ih _ hl
        exact ⟨r2, by rw [dictLookup, if_neg hk]; exact hr2, hx, hz, hm⟩
      · obtain ⟨r2, hr2, hx, hz, hm⟩ := ih _ hl
        exact ⟨r2, by rw [dictLookup, if_neg hk]; exact hr2, hx, hz, hm⟩

theorem evictPass_mem_deleteKeys {lo hi : Int × Int} {l : List ((Int × Int) × RenderRegion)}
    {a : Int × Int} (w : World) (h : a ∈ (evictPass lo hi l w).deleteKeys) :
    ∃ e, e ∈ l ∧ a = (e.2.rx, e.2.rz) ∧ ¬ inBox lo hi e.2 := by
  induction l generalizing w with
  | nil => cases h
  | cons e rest ih =>
    obtain ⟨k1, r1⟩ := e
    simp only [evictPass] at h
    split at h
    · obtain ⟨e2, he2, ha⟩ := ih _ h
      exact ⟨e2, List.mem_cons_of_mem _ he2, ha⟩
    · next hnin =>
      rcases List.mem_append.mp h with h | h
      · obtain ⟨e2, he2, ha⟩ := ih _ h
        exact ⟨e2, List.mem_cons_of_mem _ he2, ha⟩
      · rw [List.mem_singleton] at h
        exact ⟨(k1, r1), List.mem_cons_self _ _, h, hnin⟩

theorem evictPass_deleteKeys_of_outside {lo hi : Int × Int}
    {l : List ((Int × Int) × RenderRegion)} {k : Int × Int} {r : RenderRegion} (w : World)
    (hl : dictLookup l k = some r) (hout : ¬ inBox lo hi r) :
    (r.rx, r.rz) ∈ (evictPass lo hi l w).deleteKeys := by
  induction l generalizing w with
  | nil => cases hl
  | cons e rest ih =>
    obtain ⟨k1, r1⟩ := e
    by_cases hk : k1 = k
    · rw [dictLookup, if_pos hk] at hl
      cases hl
      simp only [evictPass]
      split
      · next hin => exact absurd hin hout
      · exact List.mem_append_right _ (List.mem_singleton_self _)
    · rw [dictLookup, if_neg hk] at hl
      simp only [evictPass]
      split
      · exact ih _ hl
      · exact List.mem_append_left _ (ih _ hl)

/-- Key-field coherence of the region dict: every entry is stored under the
key equal to its region's `(rx, rz)`, and keys are unique. Holds for every
reachable state, since regions are only created by `_merge_chunk_temp` under
exactly that key. -/
def regionsWF (s : ChunkManager) : Prop :=
  (∀ e ∈ s.regions, e.1 = (e.2.rx, e.2.rz)) ∧ (dictKeys s.regions).Nodup

instance (s : ChunkManager) : Decidable (regionsWF s) := by
  unfold regionsWF
  infer_instance

/-- C4: for `unload(safeArea)` with `safeArea = (x0, z0, x1, z1)`, a region of
a well-formed region map whose coordinate lies inside the region-coordinate
box spanned by `region_coords(x0, z0)` and `region_coords(x1, z1)` stays in
the map with an empty pending list (it was force-merged), while a region
outside the box is removed from the map. -/
theorem C4_safe_area_eviction (s : ChunkManager) (w : World) (x0 z0 x1 z1 : Int)
    (hwf : regionsWF s) (k : Int × Int) (r : RenderRegion)
    (hl : dictLookup s.regions k = some r) :
    (inBox (s.region_coords x0 z0) (s.region_coords x1 z1) r →
      ∃ r2, dictLookup (s.unload (some (x0, z0, x1, z1)) w).state.regions k = some r2 ∧
        r2.manual_chunks = []) ∧
    (¬ inBox (s.region_coords x0 z0) (s.region_coords x1 z1) r →
      dictLookup (s.unload (some (x0, z0, x1, z1)) w).state.regions k = none) := by
  obtain ⟨hkeys, hnodup⟩ := hwf
  have hregs : (s.unload (some (x0, z0, x1, z1)) w).state.regions =
      (evictPass (s.region_coords x0 z0) (s.region_coords x1 z1) s.regions w).deleteKeys.foldl
        dictErase
        (evictPass (s.region_coords x0 z0) (s.region_coords x1 z1) s.regions w).entries := rfl
  constructor
  · intro hin
    obtain ⟨r2, hr2, _, _, hman⟩ :=
      evictPass_lookup_some (s.region_coords x0 z0) (s.region_coords x1 z1) w hl
    refine ⟨r2, ?_, hman hin⟩
    rw [hregs]
    rw [foldl_erase_of_not_mem _ ?_]
    · exact hr2
    · intro hdel
      obtain ⟨e2, he2, hae, hout⟩ := evictPass_mem_deleteKeys w hdel
      have hke : e2.1 = k := by
        rw [hkeys e2 he2]
        exact hae.symm
      have := dictLookup_of_mem_nodup hnodup he2
      rw [hke, hl] at this
      cases this
      exact hout hin
  · intro hout
    have hkr : k = (r.rx, r.rz) := hkeys (k, r) (dictLookup_mem hl)
    rw [hregs]
    apply foldl_erase_of_mem
    · rw [evictPass_dictKeys]
      exact hnodup
    · rw [hkr]
      exact evictPass_deleteKeys_of_outside w hl hout

theorem C4_safe_area_eviction_witness :
    (regionsWF exM2.state ∧
      dictLookup exM2.state.regions (0, 0) =
        some ((RenderRegion.init 0 0).add_render_chunk chunkA)) ∧
    ((inBox (exM2.state.region_coords 0 0) (exM2.state.region_coords 0 0)
        ((RenderRegion.init 0 0).add_render_chunk chunkA) →
      ∃ r2, dictLookup (exM2.state.unload (some (0, 0, 0, 0)) exM2.world).state.regions
          (0, 0) = some r2 ∧ r2.manual_chunks = []) ∧
    (¬ inBox (exM2.state.region_coords 0 0) (exM2.state.region_coords 0 0)
        ((RenderRegion.init 0 0).add_render_chunk chunkA) →
      dictLookup (exM2.state.unload (some (0, 0, 0, 0)) exM2.world).state.regions
        (0, 0) = none)) :=
  ⟨⟨by decide, by decide⟩,
    C4_safe_area_eviction exM2.state exM2.world 0 0 0 0 (by decide) (0, 0)
      ((RenderRegion.init 0 0).add_render_chunk chunkA) (by decide)⟩

/-! ## Region-coordinate coherence -/

/-- Spatial coherence: every chunk coordinate stored in a region's dict maps
by `region_coords` to that region's key. Holds in every reachable state
(chunks are only inserted by `route` under exactly that key); the
preservation lemmas below establish this for every operation. -/
def chunksWF (s : ChunkManager) : Prop :=
  ∀ e ∈ s.regions, ∀ cc ∈ dictKeys e.2.chunks, s.region_coords cc.1 cc.2 = e.1

instance (s : ChunkManager) : Decidable (chunksWF s) := by
  unfold chunksWF
  infer_instance

theorem region_coords_congr {s1 s2 : ChunkManager} (h : s1.region_size = s2.region_size)
    (cx cz : Int) : s1.region_coords cx cz = s2.region_coords cx cz := by
  rw [ChunkManager.region_coords, ChunkManager.region_coords, h]

/-- C8: with `region_size = 16` the region coordinate of a chunk coordinate
`(cx, cz)` is `(cx // 16, cz // 16)` with `//` the floor division (the floor
of the rational quotient, also for negative coordinates); and in a spatially
coherent region map a chunk coordinate is resident in at most one region:
two regions both holding it are stored under the same key. -/
theorem C8_region_coords_floor_and_unique (s : ChunkManager) (cx cz : Int)
    (hs : s.region_size = 16) (hwf : chunksWF s) (k1 k2 : Int × Int)
    (r1 r2 : RenderRegion) (cc : Int × Int)
    (h1 : dictLookup s.regions k1 = some r1) (hc1 : cc ∈ dictKeys r1.chunks)
    (h2 : dictLookup s.regions k2 = some r2) (hc2 : cc ∈ dictKeys r2.chunks) :
    (s.region_coords cx cz = (Int.fdiv cx 16, Int.fdiv cz 16) ∧
      ⌊(cx : ℚ) / 16⌋ = Int.fdiv cx 16 ∧ ⌊(cz : ℚ) / 16⌋ = Int.fdiv cz 16) ∧
    k1 = k2 := by
  constructor
  · refine ⟨by rw [ChunkManager.region_coords, hs], ?_, ?_⟩
    · have h := Rat.floor_intCast_div_natCast cx 16
      norm_num at h
      rw [h, Int.fdiv_eq_ediv _ (by norm_num)]
    · have h := Rat.floor_intCast_div_natCast cz 16
      norm_num at h
      rw [h, Int.fdiv_eq_ediv _ (by norm_num)]
  · have e1 := hwf (k1, r1) (dictLookup_mem h1) cc hc1
    have e2 := hwf (k2, r2) (dictLookup_mem h2) cc hc2
    have : ((k1, r1).1 : Int × Int) = (k2, r2).1 := by rw [← e1, ← e2]
    exact this

theorem C8_region_coords_floor_and_unique_witness :
    (exM2.state.region_size = 16 ∧ chunksWF exM2.state ∧
      dictLookup exM2.state.regions (0, 0) =
        some ((RenderRegion.init 0 0).add_render_chunk chunkA) ∧
      (0, 0) ∈ dictKeys ((RenderRegion.init 0 0).add_render_chunk chunkA).chunks) ∧
    ((exM2.state.region_coords (-7) 20 = (Int.fdiv (-7) 16, Int.fdiv 20 16) ∧
      ⌊((-7 : Int) : ℚ) / 16⌋ = Int.fdiv (-7) 16 ∧
      ⌊((20 : Int) : ℚ) / 16⌋ = Int.fdiv 20 16) ∧
    ((0, 0) : Int × Int) = (0, 0)) :=
  ⟨⟨by decide, by decide, by decide, by decide⟩,
    C8_region_coords_floor_and_unique exM2.state (-7) 20 (by decide) (by decide)
      (0, 0) (0, 0) ((RenderRegion.init 0 0).add_render_chunk chunkA)
      ((RenderRegion.init 0 0).add_render_chunk chunkA) (0, 0)
      (by decide) (by decide) (by decide) (by decide)⟩

/-! ## Preservation of the region-map invariants

`regionsWF` and `chunksWF` (the hypotheses of the eviction and uniqueness
theorems) hold in the initial state and are preserved by every public
operation, so they hold in every reachable state. -/

/-- Both region-map invariants together. -/
def managerWF (s : ChunkManager) : Prop := regionsWF s ∧ chunksWF s

theorem managerWF_init (n : Int) : managerWF (ChunkManager.init n) :=
  ⟨⟨fun e he => absurd he (List.not_mem_nil e), List.nodup_nil⟩,
    fun e he => absurd he (List.not_mem_nil e)⟩

theorem managerWF_add_render_chunk {s : ChunkManager} (c : RenderChunk)
    (h : managerWF s) : managerWF (s.add_render_chunk c) := h

theorem dictKeys_dictInsert_of_mem {β : Type} {d : List ((Int × Int) × β)} {k : Int × Int}
    (v : β) (h : k ∈ dictKeys d) : dictKeys (dictInsert d k v) = dictKeys d := by
  induction d with
  | nil => cases h
  | cons e rest ih =>
    by_cases he : e.1 = k
    · rw [dictInsert, if_pos he, dictKeys_cons, dictKeys_cons, he]
    · rw [dictKeys_cons, List.mem_cons] at h
      rcases h with h | h
      · exact absurd h.symm he
      · rw [dictInsert, if_neg he, dictKeys_cons, dictKeys_cons, ih h]

theorem dictKeys_dictInsert_of_not_mem {β : Type} {d : List ((Int × Int) × β)} {k : Int × Int}
    (v : β) (h : k ∉ dictKeys d) : dictKeys (dictInsert d k v) = dictKeys d ++ [k] := by
  induction d with
  | nil => rfl
  | cons e rest ih =>
    rw [dictKeys_cons, List.mem_cons] at h
    push_neg at h
    rw [dictInsert, if_neg (fun hh => h.1 hh.symm), dictKeys_cons, dictKeys_cons, ih h.2]
    rfl

theorem dictKeys_dictInsert_nodup {β : Type} {d : List ((Int × Int) × β)} (k : Int × Int)
    (v : β) (h : (dictKeys d).Nodup) : (dictKeys (dictInsert d k v)).Nodup := by
  by_cases hk : k ∈ dictKeys d
  · rw [dictKeys_dictInsert_of_mem v hk]
    exact h
  · rw [dictKeys_dictInsert_of_not_mem v hk]
    simp [List.nodup_append, h, hk]

theorem mem_keys_of_mem_keys_dictInsert {β : Type} {d : List ((Int × Int) × β)}
    {k cc : Int × Int} {v : β} (h : cc ∈ dictKeys (dictInsert d k v)) :
    cc = k ∨ cc ∈ dictKeys d := by
  rw [dictKeys, List.mem_map] at h
  obtain ⟨e, he, hcc⟩ := h
  rcases mem_of_mem_dictInsert he with he | he
  · left
    rw [← hcc, he]
  · right
    rw [dictKeys, List.mem_map]
    exact ⟨e, he, hcc⟩

theorem managerWF_route {s : ChunkManager} (c : RenderChunk) (h : managerWF s) :
    managerWF (s.route c) := by
  obtain ⟨⟨hkeys, hnodup⟩, hch⟩ := h
  refine ⟨⟨?_, ?_⟩, ?_⟩
  · intro e he
    simp only [ChunkManager.route] at he
    rcases mem_of_mem_dictInsert he with he | he
    · rw [he]
      cases hlk : dictLookup s.regions (s.region_coords c.cx c.cz) with
      | none =>
        simp [RenderRegion.add_render_chunk, RenderRegion.init]
      | some reg =>
        have := hkeys (s.region_coords c.cx c.cz, reg) (dictLookup_mem hlk)
        simpa [RenderRegion.add_render_chunk] using this
    · exact hkeys e he
  · show (dictKeys (dictInsert s.regions (s.region_coords c.cx c.cz) _)).Nodup
    exact dictKeys_dictInsert_nodup _ _ hnodup
  · intro e he cc hcc
    simp only [ChunkManager.route] at he
    show s.region_coords cc.1 cc.2 = e.1
    rcases mem_of_mem_dictInsert he with he | he
    · rw [he] at hcc ⊢
      have hcc2 : cc ∈ dictKeys (dictInsert
          ((dictLookup s.regions (s.region_coords c.cx c.cz)).getD
            (RenderRegion.init (s.region_coords c.cx c.cz).1
              (s.region_coords c.cx c.cz).2)).chunks (c.cx, c.cz) c) := hcc
      rcases mem_keys_of_mem_keys_dictInsert hcc2 with hcc3 | hcc3
      · rw [hcc3]
      · cases hlk : dictLookup s.regions (s.region_coords c.cx c.cz) with
        | none =>
          rw [hlk] at hcc3
          cases hcc3
        | some reg =>
          rw [hlk] at hcc3
          exact hch (s.region_coords c.cx c.cz, reg) (dictLookup_mem hlk) cc hcc3
    · exact hch e he cc hcc

theorem managerWF_foldl_route {l : List RenderChunk} {s : ChunkManager} (h : managerWF s) :
    managerWF (l.foldl ChunkManager.route s) := by
  induction l generalizing s with
  | nil => exact h
  | cons c rest ih =>
    rw [List.foldl_cons]
    exact ih (managerWF_route c h)

theorem managerWF_merge_chunk_temp {s : ChunkManager} (h : managerWF s) :
    managerWF s.merge_chunk_temp :=
  managerWF_foldl_route h

theorem drawRegions_dictKeys (l : List ((Int × Int) × RenderRegion)) (w : World) :
    dictKeys (drawRegions l w).1 = dictKeys l := by
  induction l generalizing w with
  | nil => rfl
  | cons e rest ih =>
    obtain ⟨k, r⟩ := e
    simp only [drawRegions]
    rw [dictKeys_cons, ih, dictKeys_cons]

theorem drawRegions_mem_entries {l : List ((Int × Int) × RenderRegion)}
    {e : (Int × Int) × RenderRegion} (w : World) (h : e ∈ (drawRegions l w).1) :
    ∃ e0, e0 ∈ l ∧ e.1 = e0.1 ∧ e.2.chunks = e0.2.chunks ∧
      e.2.rx = e0.2.rx ∧ e.2.rz = e0.2.rz := by
  induction l generalizing w with
  | nil => cases h
  | cons f rest ih =>
    obtain ⟨k1, r1⟩ := f
    simp only [drawRegions] at h
    rcases List.mem_cons.mp h with h | h
    · subst h
      exact ⟨(k1, r1), List.mem_cons_self _ _, rfl, draw_region_chunks r1 w,
        draw_region_rx r1 w, draw_region_rz r1 w⟩
    · obtain ⟨e0, he0, hh⟩ := ih _ h
      exact ⟨e0, List.mem_cons_of_mem _ he0, hh⟩

theorem evictPass_mem_entries {lo hi : Int × Int} {l : List ((Int × Int) × RenderRegion)}
    {e : (Int × Int) × RenderRegion} (w : World) (h : e ∈ (evictPass lo hi l w).entries) :
    ∃ e0, e0 ∈ l ∧ e.1 = e0.1 ∧ (e.2.chunks = e0.2.chunks ∨ e.2.chunks = []) ∧
      e.2.rx = e0.2.rx ∧ e.2.rz = e0.2.rz := by
  induction l generalizing w with
  | nil => cases h
  | cons f rest ih =>
    obtain ⟨k1, r1⟩ := f
    simp only [evictPass] at h
    split at h
    · rcases List.mem_cons.mp h with h | h
      · subst h
        exact ⟨(k1, r1), List.mem_cons_self _ _, rfl, Or.inl (merge_region_chunks r1 w),
          merge_region_rx r1 w, merge_region_rz r1 w⟩
      · obtain ⟨e0, he0, hh⟩ := ih _ h
        exact ⟨e0, List.mem_cons_of_mem _ he0, hh⟩
    · rcases List.mem_cons.mp h with h | h
      · subst h
        exact ⟨(k1, r1), List.mem_cons_self _ _, rfl, Or.inr (unload_region_chunks r1 w),
          unload_region_rx r1 w, unload_region_rz r1 w⟩
      · obtain ⟨e0, he0, hh⟩ := ih _ h
        exact ⟨e0, List.mem_cons_of_mem _ he0, hh⟩

theorem mem_of_mem_foldl_erase {β : Type} {dels : List (Int × Int)}
    {d : List ((Int × Int) × β)} {e : (Int × Int) × β}
    (h : e ∈ dels.foldl dictErase d) : e ∈ d := by
  induction dels generalizing d with
  | nil => exact h
  | cons a rest ih =>
    rw [List.foldl_cons] at h
    exact mem_of_mem_dictErase (ih h)

theorem managerWF_draw {s : ChunkManager} (w : World) (h : managerWF s) :
    managerWF (s.draw w).state := by
  apply managerWF_merge_chunk_temp
  obtain ⟨⟨hkeys, hnodup⟩, hch⟩ := h
  refine ⟨⟨?_, ?_⟩, ?_⟩
  · intro e he
    obtain ⟨e0, he0, h1, h2, h3, h4⟩ := drawRegions_mem_entries w he
    rw [h1, h3, h4]
    exact hkeys e0 he0
  · show (dictKeys (drawRegions s.regions w).1).Nodup
    rw [drawRegions_dictKeys]
    exact hnodup
  · intro e he cc hcc
    obtain ⟨e0, he0, h1, h2, h3, h4⟩ := drawRegions_mem_entries w he
    rw [h2] at hcc
    show s.region_coords cc.1 cc.2 = e.1
    rw [h1]
    exact hch e0 he0 cc hcc

theorem managerWF_unload_none (s : ChunkManager) (w : World) :
    managerWF (s.unload none w).state :=
  ⟨⟨fun e he => absurd he (List.not_mem_nil e), List.nodup_nil⟩,
    fun e he => absurd he (List.not_mem_nil e)⟩

theorem managerWF_unload_some {s : ChunkManager} (w : World) (a : Int × Int × Int × Int)
    (h : managerWF s) : managerWF (s.unload (some a) w).state := by
  obtain ⟨x0, z0, x1, z1⟩ := a
  obtain ⟨⟨hkeys, hnodup⟩, hch⟩ := h
  refine ⟨⟨?_, ?_⟩, ?_⟩
  · intro e he
    obtain ⟨e0, he0, h1, h2, h3, h4⟩ := evictPass_mem_entries w (mem_of_mem_foldl_erase he)
    rw [h1, h3, h4]
    exact hkeys e0 he0
  · show (dictKeys ((evictPass (s.region_coords x0 z0) (s.region_coords x1 z1)
        s.regions w).deleteKeys.foldl dictErase
        (evictPass (s.region_coords x0 z0) (s.region_coords x1 z1) s.regions w).entries)).Nodup
    apply foldl_erase_nodup
    rw [evictPass_dictKeys]
    exact hnodup
  · intro e he cc hcc
    obtain ⟨e0, he0, h1, h2, h3, h4⟩ := evictPass_mem_entries w (mem_of_mem_foldl_erase he)
    show s.region_coords cc.1 cc.2 = e.1
    rcases h2 with h2 | h2
    · rw [h2] at hcc
      rw [h1]
      exact hch e0 he0 cc hcc
    · rw [h2] at hcc
      cases hcc
